import Mathlib

/-!
Verification of the site-transcription capture/OCR pipeline.

The definitions below are shallow embeddings of the TypeScript source:
scroll-offset computation and segment composition from
`captureFullPageManually` (server entry point), and image chunking,
bounded-concurrency execution, retry, text filtering and cleanup from
`gemini-helper.ts`.  Machine numbers in the source are DOM pixel counts
and loop indices, all non-negative integers well inside the
double-precision exact range, so they are modelled as `Nat` (or `Int`
where a subtraction may go negative before being clamped).
-/

namespace SiteTranscription


/-- Ceiling division on naturals: the value of JS `Math.ceil(a / b)` for
natural `a` and positive natural `b`. -/
def ceilDiv (a b : Nat) : Nat := (a + b - 1) / b

/-! ## Viewport Segmenter

Embeds the scroll-offset computation of `captureFullPageManually`:
`numSegments = Math.ceil(totalHeight / viewportHeight)`, and for each
loop index `i`, `scrollY = max(0, totalHeight - viewportHeight)` when
`i` is the last index, else `scrollY = i * viewportHeight`. -/

/-- Number of viewport segments, `Math.ceil(totalHeight / viewportHeight)`. -/
def numSegments (totalHeight viewportHeight : Nat) : Nat :=
  ceilDiv totalHeight viewportHeight

/-- The `scrollY` value computed for loop index `i` out of `n` segments. -/
def segmentScrollY (totalHeight viewportHeight n i : Nat) : Nat :=
  if i = n - 1 then max 0 (totalHeight - viewportHeight) else i * viewportHeight

/-- The ordered list of scroll offsets produced by the capture loop. -/
def segmenterOffsets (totalHeight viewportHeight : Nat) : List Nat :=
  (List.range (numSegments totalHeight viewportHeight)).map
    (segmentScrollY totalHeight viewportHeight (numSegments totalHeight viewportHeight))

/-! ## Segment Compositor

Embeds the composite-input placement of `captureFullPageManually`:
`totalImageHeight = totalHeight * deviceScaleFactor`,
`segmentImageHeight = viewportHeight * deviceScaleFactor`; segment `i`
is pasted at `top = Math.round(Math.max(0, totalImageHeight -
segmentImageHeight))` when `i` is the last index, else `top =
Math.round(i * segmentImageHeight)`.  All quantities involved are
integers (DOM pixels times the integer `deviceScaleFactor`, which the
program fixes at 3), so `Math.round` is the identity and the values are
modelled over `Int` to keep the clamped subtraction faithful. -/

/-- Vertical paste offsets (the `top` fields of the composite inputs)
for `n` captured segments. -/
def compositorTops (totalHeight viewportHeight scaleFactor : Int) (n : Nat) : List Int :=
  (List.range n).map fun i =>
    if i = n - 1 then max 0 (totalHeight * scaleFactor - viewportHeight * scaleFactor)
    else (i : Int) * (viewportHeight * scaleFactor)

/-! ## Image Chunker

Embeds `splitImage` of `gemini-helper.ts`.  A chunk is recorded as the
pair `(top, height)` handed to `sharp.extract`; the fallback paths
(image metadata unavailable, or already under the limit) return the
whole image as the single chunk `(0, height)`. -/

/-- The chunk list produced by `splitImage` for an image of the given
width and height with chunk limit `maxHeight`. -/
def splitImageChunks (width height maxHeight : Nat) : List (Nat × Nat) :=
  if width = 0 ∨ height = 0 then [(0, height)]
  else if height ≤ maxHeight then [(0, height)]
  else
    (List.range (ceilDiv height maxHeight)).map fun i =>
      (i * maxHeight, min maxHeight (height - i * maxHeight))

/-! ## Bounded-Concurrency Executor

Embeds `runWithConcurrencyLimit` of `gemini-helper.ts`.  The source
starts `min(limit, tasks.length)` workers; each worker synchronously
claims the shared counter `currentIndex++`, awaits its task, writes
`results[index]`, and claims again until the counter reaches the end.
The model is a small-step system: a state holds the shared counter, the
multiset of indices currently being executed (one per busy worker) and
the write-once result slots; a step nondeterministically settles one
in-flight index (any completion order), records its value, and lets
that worker claim the next index if one remains.  `tasks i` is the
value unit `i` eventually resolves with. -/

/-- Executor state: shared claim counter, in-flight indices, result slots. -/
structure ExecState (V : Type) where
  next : Nat
  running : List Nat
  results : List (Option V)
deriving Repr

/-- Initial state: the first `min limit numTasks` indices are claimed
synchronously, one by each started worker. -/
def initExecState (V : Type) (numTasks limit : Nat) : ExecState V :=
  { next := min limit numTasks
    running := List.range (min limit numTasks)
    results := List.replicate numTasks none }

/-- One step: in-flight unit `j` settles; its slot is written with its
resolved value and the finishing worker claims the next index if any. -/
def execStep {V : Type} (tasks : Nat → V) (numTasks : Nat)
    (s : ExecState V) (j : Nat) : ExecState V :=
  { next := if s.next < numTasks then s.next + 1 else s.next
    running := s.running.erase j ++ (if s.next < numTasks then [s.next] else [])
    results := s.results.set j (some (tasks j)) }

/-- Reachable executor states, with the trace of settled indices in
completion order. -/
inductive ExecReach {V : Type} (tasks : Nat → V) (numTasks limit : Nat) :
    ExecState V → List Nat → Prop where
  | init : ExecReach tasks numTasks limit (initExecState V numTasks limit) []
  | step {s : ExecState V} {tr : List Nat} {j : Nat} :
      ExecReach tasks numTasks limit s tr → j ∈ s.running →
      ExecReach tasks numTasks limit (execStep tasks numTasks s j) (tr ++ [j])

/-- Invariant of the executor, carried by every reachable state. -/
def ExecInv {V : Type} (tasks : Nat → V) (numTasks limit : Nat)
    (s : ExecState V) (tr : List Nat) : Prop :=
  s.next ≤ numTasks ∧
  s.running.Nodup ∧
  (∀ j ∈ s.running, j < s.next) ∧
  s.running.length ≤ limit ∧
  s.results.length = numTasks ∧
  (∀ i, i < s.next → i ∉ s.running → s.results[i]? = some (some (tasks i))) ∧
  (s.running = [] → s.next = numTasks) ∧
  tr.Nodup ∧
  (∀ k, k ∈ tr ↔ (k < s.next ∧ k ∉ s.running))

/-! ## Extraction progress callback

Embeds the progress reporting of `ocrSingleImage`: when the unit for
chunk `chunkIndex` settles, it invokes
`onProgress?.(chunkIndex + 1, totalChunks)`.  Under the concurrent
executor the units settle in an arbitrary order, so the sequence of
callback invocations for a run with completion order `tr` carries the
settling unit's own index plus one, in completion order. -/

/-- The sequence of (first, second) argument pairs passed to the
progress callback over a run whose units settle in the given order. -/
def progressEvents (completionOrder : List Nat) (totalChunks : Nat) :
    List (Nat × Nat) :=
  completionOrder.map fun j => (j + 1, totalChunks)

/-! ## Retry helper

Embeds `withRetry` of `gemini-helper.ts`.  A JS `throw` can carry any
value; the source wraps a caught value as
`error instanceof Error ? error : new Error(String(error))` before the
retryability check and before rethrow.  Thrown values are modelled by
`JsValue` (an `Error` object with a message, or a non-`Error` value by
its `String(value)` rendering); the propagated object is a `JsError`.
The backend is modelled as a function from the attempt number to that
invocation's outcome. -/

/-- A value thrown by the wrapped function: an Error object carrying a
message, or any non-Error value represented by `String(value)`. -/
inductive JsValue where
  | errorObj (message : String)
  | nonError (stringRepr : String)
deriving DecidableEq

/-- An Error instance as seen by callers of the retry helper. -/
structure JsError where
  message : String
deriving DecidableEq

/-- Wrapping of a caught value:
`error instanceof Error ? error : new Error(String(error))`. -/
def toError : JsValue → JsError
  | JsValue.errorObj m => { message := m }
  | JsValue.nonError s => { message := s }

/-- JS `haystack.includes(needle)` on strings. -/
def containsSubstr (pat s : String) : Bool :=
  s.data.tails.any fun t => pat.data.isPrefixOf t

/-- The retryability test of `withRetry`:
`message.includes('503') || message.includes('overloaded') ||
message.includes('UNAVAILABLE') || message.includes('429')`. -/
def isRetryable (msg : String) : Bool :=
  containsSubstr "503" msg || containsSubstr "overloaded" msg ||
    containsSubstr "UNAVAILABLE" msg || containsSubstr "429" msg

/-- The retry loop from attempt `i` with the given fuel.  The fuel
only bounds the recursion; it never runs out when it starts at
`maxRetries` with `i = 0` and `1 <= maxRetries`, because the loop
throws at `i = maxRetries - 1` at the latest. -/
def withRetryGo {V : Type} (attempts : Nat → Except JsValue V)
    (maxRetries : Nat) : Nat → Nat → Except JsError V
  | _, 0 => Except.error { message := "" }
  | i, fuel + 1 =>
    match attempts i with
    | Except.ok v => Except.ok v
    | Except.error raw =>
      let lastError := toError raw
      if isRetryable lastError.message = false ∨ i = maxRetries - 1 then
        Except.error lastError
      else
        withRetryGo attempts maxRetries (i + 1) fuel

/-- Embeds `withRetry(fn, maxRetries)`: run the attempts in order,
retrying only transient failures, up to `maxRetries` invocations. -/
def withRetry {V : Type} (attempts : Nat → Except JsValue V)
    (maxRetries : Nat) : Except JsError V :=
  withRetryGo attempts maxRetries 0 maxRetries

/-! ## No-text boilerplate filtering and chunk joining

Embeds the `noTextPatterns` filter of `ocrSingleImage` (applied to the
trimmed per-chunk response text) and `allTexts.join('\n\n')` of
`performOcr`.  Five of the seven patterns are anchor-free literal
phrases (substring tests); one contains a dot-star that cannot cross a
line terminator; the last two are anchored. -/

/-- JS RegExp.test for a pattern of the shape first-phrase
dot-star second-phrase: an occurrence of `pre` followed, with no
newline in between (a JS dot does not match line terminators), by an
occurrence of `post`. -/
def containsSeqNoNewline (pre post s : String) : Bool :=
  s.data.tails.any fun t =>
    pre.data.isPrefixOf t &&
      ((t.drop pre.data.length).takeWhile fun c => c ≠ '\n').tails.any
        fun u => post.data.isPrefixOf u

/-- The seven noTextPatterns tests of ocrSingleImage, in source order. -/
def matchesNoTextPattern (text : String) : Bool :=
  containsSubstr "この画像にはテキストが含まれていません" text ||
    containsSeqNoNewline "テキストは" "ありません" text ||
    containsSubstr "テキストが存在しません" text ||
    containsSubstr "テキストを抽出できません" text ||
    containsSubstr "画像にテキストは見つかりません" text ||
    "特にありません".data.isPrefixOf text.data ||
    text = "なし"

/-- The per-chunk normalization: a chunk text matching a no-text
pattern becomes the empty string. -/
def filterNoText (text : String) : String :=
  if matchesNoTextPattern text then "" else text

/-- JS Array.join('\n\n') over the ordered chunk texts. -/
def combineTexts : List String → String
  | [] => ""
  | [t] => t
  | t :: rest => t ++ "\n\n" ++ combineTexts rest

/-! ## Rule-based cleanup

Embeds `preCleanOcr` of `gemini-helper.ts`: three global literal
replacements, the number-fragment join
replace((digits dot? digits) newline unit, '$1$2'), the collapse of
runs of four or more newlines to three, and the per-line trim. -/

/-- Global replacement of the misread 休舌 by 体重. -/
def fixMisreadWeight : List Char → List Char
  | '休' :: '舌' :: cs => '体' :: '重' :: fixMisreadWeight cs
  | c :: cs => c :: fixMisreadWeight cs
  | [] => []

/-- Global replacement of the misreads 內臟 and 内臟 by 内臓. -/
def fixMisreadOrgan : List Char → List Char
  | '內' :: '臟' :: cs => '内' :: '臓' :: fixMisreadOrgan cs
  | '内' :: '臟' :: cs => '内' :: '臓' :: fixMisreadOrgan cs
  | c :: cs => c :: fixMisreadOrgan cs
  | [] => []

/-- Global replacement of ㎡ by ㎠. -/
def fixSquareMeter : List Char → List Char
  | '㎡' :: cs => '㎠' :: fixSquareMeter cs
  | c :: cs => c :: fixSquareMeter cs
  | [] => []

/-- The unit alternation kg, 円, percent, cm, ㎠ tried in source
order at the head of the input. -/
def matchUnit (cs : List Char) : Option (List Char × List Char) :=
  if "kg".data.isPrefixOf cs then some ("kg".data, cs.drop 2)
  else if "円".data.isPrefixOf cs then some ("円".data, cs.drop 1)
  else if "%".data.isPrefixOf cs then some ("%".data, cs.drop 1)
  else if "cm".data.isPrefixOf cs then some ("cm".data, cs.drop 2)
  else if "㎠".data.isPrefixOf cs then some ("㎠".data, cs.drop 1)
  else none

/-- Attempt the number-fragment pattern (digits, optional dot, digits,
newline, unit) at the head of the input; on success return the
replacement ($1$2, the newline dropped) and the remaining input.  The
regex is deterministic here: giving digits back to the engine always
re-fails, so the greedy reading is the only one. -/
def matchNumberNewlineUnit (cs : List Char) : Option (List Char × List Char) :=
  let d1 := cs.takeWhile Char.isDigit
  if d1.isEmpty then none
  else
    let r1 := cs.drop d1.length
    let dotPart := if r1.head? = some '.' then ['.'] else []
    let r2 := r1.drop dotPart.length
    let d2 := r2.takeWhile Char.isDigit
    let r3 := r2.drop d2.length
    match r3 with
    | '\n' :: r4 =>
      match matchUnit r4 with
      | some (u, r5) => some (d1 ++ dotPart ++ d2 ++ u, r5)
      | none => none
    | _ => none

/-- Left-to-right global scan applying the number-fragment join; on a
match the scan resumes after the replacement, otherwise it advances
one character.  The fuel only bounds recursion and never runs out when
it starts at the input length. -/
def joinNumberFragments : Nat → List Char → List Char
  | 0, cs => cs
  | _ + 1, [] => []
  | fuel + 1, c :: cs =>
    match matchNumberNewlineUnit (c :: cs) with
    | some (rep, rest) => rep ++ joinNumberFragments fuel rest
    | none => c :: joinNumberFragments fuel cs

/-- The number-fragment join pass of preCleanOcr. -/
def numberFragmentJoin (cs : List Char) : List Char :=
  joinNumberFragments cs.length cs

/-- Left-to-right global scan collapsing every run of four or more
newlines to exactly three (replace(newline-run-of-4-or-more,
three newlines)). -/
def collapseBlankRuns : Nat → List Char → List Char
  | 0, cs => cs
  | _ + 1, [] => []
  | fuel + 1, c :: cs =>
    if c = '\n' then
      let run := (c :: cs).takeWhile fun x => x = '\n'
      let rest := (c :: cs).drop run.length
      if 4 ≤ run.length then '\n' :: '\n' :: '\n' :: collapseBlankRuns fuel rest
      else run ++ collapseBlankRuns fuel rest
    else c :: collapseBlankRuns fuel cs

/-- JS String.trim on a single line. -/
def trimChars (cs : List Char) : List Char :=
  ((cs.dropWhile Char.isWhitespace).reverse.dropWhile Char.isWhitespace).reverse

/-- JS String.trim, modelled at the character-list level. -/
def trimString (s : String) : String := String.mk (trimChars s.data)

/-- split('\n').map(line => line.trim()).join('\n') of preCleanOcr. -/
def trimLines (cs : List Char) : List Char :=
  List.intercalate ['\n'] ((cs.splitOn '\n').map trimChars)

/-- Embeds preCleanOcr: misread fixes, number-fragment join, blank-run
collapse, per-line trim, in source order. -/
def preCleanOcr (s : String) : String :=
  let step1 := fixMisreadWeight s.data
  let step2 := fixMisreadOrgan step1
  let step3 := fixSquareMeter step2
  let step4 := numberFragmentJoin step3
  let step5 := collapseBlankRuns step4.length step4
  String.mk (trimLines step5)

/-- Embeds postProcessOcr: run the reflow backend through withRetry
with the default three attempts; on success return the trimmed
response, on failure return the rule-cleaned input text unchanged. -/
def postProcessOcr (attempts : Nat → Except JsValue String)
    (rawText : String) : String :=
  match withRetry attempts 3 with
  | Except.ok t => trimString t
  | Except.error _ => rawText

theorem ceilDiv_pos (a b : Nat) (ha : 0 < a) (hb : 0 < b) : 1 ≤ ceilDiv a b := by
  unfold ceilDiv
  rw [Nat.le_div_iff_mul_le hb]
  omega

theorem le_ceilDiv_mul (a b : Nat) (hb : 0 < b) : a ≤ ceilDiv a b * b := by
  unfold ceilDiv
  have h : (a + b - 1) / b < (a + b - 1) / b + 1 := Nat.lt_succ_self _
  rw [Nat.div_lt_iff_lt_mul hb] at h
  have h2 : ((a + b - 1) / b + 1) * b = (a + b - 1) / b * b + b := by ring
  omega

theorem ceilDiv_pred_mul_lt (a b : Nat) (hb : 0 < b) (ha : 0 < a) :
    (ceilDiv a b - 1) * b < a := by
  unfold ceilDiv
  have h : (a + b - 1) / b * b ≤ a + b - 1 := Nat.div_mul_le_self _ _
  have h2 : ((a + b - 1) / b - 1) * b = (a + b - 1) / b * b - 1 * b := Nat.sub_mul _ _ _
  omega

theorem ceilDiv_eq_one (a b : Nat) (ha : 0 < a) (hab : a ≤ b) : ceilDiv a b = 1 := by
  have hb : 0 < b := lt_of_lt_of_le ha hab
  have h1 : 1 ≤ ceilDiv a b := ceilDiv_pos a b ha hb
  have h2 : ceilDiv a b < 2 := by
    unfold ceilDiv
    rw [Nat.div_lt_iff_lt_mul hb]
    omega
  omega

/-- Sum of the per-chunk heights of the forward tiling. -/
theorem sum_chunk_heights (m h : Nat) :
    ∀ n : Nat, (((List.range n).map fun i => min m (h - i * m)).sum) = min h (n * m) := by
  intro n
  induction n with
  | zero => simp
  | succ k ih =>
    rw [List.range_succ, List.map_append, List.sum_append, ih]
    have hs : (k + 1) * m = k * m + m := by ring
    simp only [List.map_cons, List.map_nil, List.sum_cons, List.sum_nil, hs]
    rcases Nat.le_total h (k * m) with hc | hc
    · rcases Nat.le_total m (h - k * m) with hd | hd <;> omega
    · rcases Nat.le_total m (h - k * m) with hd | hd <;> omega

/-- C1: for every page geometry, the Segmenter produces exactly
ceil(totalHeight / viewportHeight) scroll offsets; every offset except
the last equals i * viewportHeight; the last equals
max(0, totalHeight - viewportHeight); totalHeight 2500 and
viewportHeight 800 give the four offsets 0, 800, 1600, 1700; and
totalHeight at most viewportHeight gives exactly one offset 0. -/
theorem segmenter_offsets_spec (totalHeight viewportHeight : Nat)
    (hv : 0 < viewportHeight) (ht : 0 < totalHeight) :
    (segmenterOffsets totalHeight viewportHeight).length
        = ceilDiv totalHeight viewportHeight ∧
    (∀ i, i + 1 < numSegments totalHeight viewportHeight →
      (segmenterOffsets totalHeight viewportHeight)[i]? = some (i * viewportHeight)) ∧
    (segmenterOffsets totalHeight viewportHeight).getLast?
        = some (max 0 (totalHeight - viewportHeight)) ∧
    (totalHeight ≤ viewportHeight → segmenterOffsets totalHeight viewportHeight = [0]) ∧
    segmenterOffsets 2500 800 = [0, 800, 1600, 1700] := by
  have hn : 1 ≤ numSegments totalHeight viewportHeight := ceilDiv_pos _ _ ht hv
  refine ⟨?_, ?_, ?_, ?_, ?_⟩
  · simp [segmenterOffsets, numSegments]
  · intro i hi
    have hlt : i < numSegments totalHeight viewportHeight := by omega
    simp only [segmenterOffsets, List.getElem?_map, List.getElem?_range hlt,
      Option.map_some]
    have hne : i ≠ numSegments totalHeight viewportHeight - 1 := by omega
    simp [segmentScrollY, hne]
  · rw [List.getLast?_eq_getElem?]
    have hlen : (segmenterOffsets totalHeight viewportHeight).length
        = numSegments totalHeight viewportHeight := by
      simp [segmenterOffsets]
    rw [hlen]
    have hlt : numSegments totalHeight viewportHeight - 1
        < numSegments totalHeight viewportHeight := by omega
    simp only [segmenterOffsets, List.getElem?_map, List.getElem?_range hlt,
      Option.map_some]
    simp [segmentScrollY]
  · intro hle
    have h1 : numSegments totalHeight viewportHeight = 1 := ceilDiv_eq_one _ _ ht hle
    have h0 : totalHeight - viewportHeight = 0 := by omega
    have hr : List.range 1 = [0] := rfl
    simp [segmenterOffsets, h1, hr, segmentScrollY, h0]
  · decide

/-- Closed instance of the Segmenter specification at the geometry
totalHeight 2500, viewportHeight 800. -/
theorem segmenter_offsets_spec_witness :
    (segmenterOffsets 2500 800).length = ceilDiv 2500 800 ∧
    (∀ i, i + 1 < numSegments 2500 800 →
      (segmenterOffsets 2500 800)[i]? = some (i * 800)) ∧
    (segmenterOffsets 2500 800).getLast? = some (max 0 (2500 - 800)) ∧
    (2500 ≤ 800 → segmenterOffsets 2500 800 = [0]) ∧
    segmenterOffsets 2500 800 = [0, 800, 1600, 1700] :=
  segmenter_offsets_spec 2500 800 (by decide) (by decide)

/-- C2: for every captured segment list of length n, the Compositor
pastes segment i < n-1 at vertical offset i * viewportHeight *
scaleFactor (which equals round(i * viewportHeight * scaleFactor) on the
integer pixel values used by the program), and pastes the last segment
at vertical offset max(0, totalHeight * scaleFactor - viewportHeight *
scaleFactor), which on integers equals round(totalHeight * scaleFactor)
- round(viewportHeight * scaleFactor) clamped to be nonnegative. -/
theorem compositor_tops_spec (totalHeight viewportHeight scaleFactor : Int)
    (n : Nat) (hn : 1 ≤ n) :
    (compositorTops totalHeight viewportHeight scaleFactor n).length = n ∧
    (∀ i, i + 1 < n →
      (compositorTops totalHeight viewportHeight scaleFactor n)[i]?
        = some ((i : Int) * (viewportHeight * scaleFactor))) ∧
    (compositorTops totalHeight viewportHeight scaleFactor n).getLast?
        = some (max 0 (totalHeight * scaleFactor - viewportHeight * scaleFactor)) := by
  refine ⟨?_, ?_, ?_⟩
  · simp [compositorTops]
  · intro i hi
    have hlt : i < n := by omega
    have hne : i ≠ n - 1 := by omega
    simp only [compositorTops, List.getElem?_map, List.getElem?_range hlt,
      Option.map_some]
    simp [hne]
  · rw [List.getLast?_eq_getElem?]
    have hlen : (compositorTops totalHeight viewportHeight scaleFactor n).length = n := by
      simp [compositorTops]
    rw [hlen]
    have hlt : n - 1 < n := by omega
    simp only [compositorTops, List.getElem?_map, List.getElem?_range hlt,
      Option.map_some]
    simp

/-- Closed instance of the Compositor specification at the geometry
totalHeight 2500, viewportHeight 800, scaleFactor 3, four segments. -/
theorem compositor_tops_spec_witness :
    (compositorTops 2500 800 3 4).length = 4 ∧
    (∀ i : Nat, i + 1 < 4 →
      (compositorTops 2500 800 3 4)[i]? = some ((i : Int) * (800 * 3))) ∧
    (compositorTops 2500 800 3 4).getLast? = some (max 0 (2500 * 3 - 800 * 3)) :=
  compositor_tops_spec 2500 800 3 4 (by decide)

/-- C3: for every image whose height exceeds maxChunkHeight (and whose
metadata is available, width positive), the Chunker produces
ceil(height / maxChunkHeight) chunks; chunk i covers rows from
i * maxChunkHeight to min(height, (i+1) * maxChunkHeight); the chunk
heights sum to the source height; every chunk except the final one has
exactly the limit height; and height 9000 with limit 4000 gives three
chunks of heights 4000, 4000, 1000. -/
theorem split_image_chunks_spec (width height maxHeight : Nat)
    (hw : 0 < width) (hm : 0 < maxHeight) (hh : maxHeight < height) :
    (splitImageChunks width height maxHeight).length = ceilDiv height maxHeight ∧
    (∀ i, i < ceilDiv height maxHeight →
      (splitImageChunks width height maxHeight)[i]?
          = some (i * maxHeight, min maxHeight (height - i * maxHeight)) ∧
      i * maxHeight + min maxHeight (height - i * maxHeight)
          = min height ((i + 1) * maxHeight)) ∧
    ((splitImageChunks width height maxHeight).map Prod.snd).sum = height ∧
    (∀ i, i + 1 < ceilDiv height maxHeight →
      ((splitImageChunks width height maxHeight)[i]?.map Prod.snd)
          = some maxHeight) ∧
    ((splitImageChunks 100 9000 4000).map Prod.snd) = [4000, 4000, 1000] := by
  have hw0 : width ≠ 0 := by omega
  have hh0 : height ≠ 0 := by omega
  have hnle : ¬ height ≤ maxHeight := by omega
  have hsplit : splitImageChunks width height maxHeight
      = (List.range (ceilDiv height maxHeight)).map fun i =>
          (i * maxHeight, min maxHeight (height - i * maxHeight)) := by
    simp [splitImageChunks, hw0, hh0, hnle]
  have hcover : ∀ i, i < ceilDiv height maxHeight → i * maxHeight < height := by
    intro i hi
    have h1 : (ceilDiv height maxHeight - 1) * maxHeight < height :=
      ceilDiv_pred_mul_lt _ _ hm (by omega)
    have h2 : i * maxHeight ≤ (ceilDiv height maxHeight - 1) * maxHeight :=
      Nat.mul_le_mul_right _ (by omega)
    omega
  refine ⟨?_, ?_, ?_, ?_, ?_⟩
  · simp [hsplit]
  · intro i hi
    constructor
    · simp only [hsplit, List.getElem?_map, List.getElem?_range hi]
      rfl
    · have hc := hcover i hi
      have hs : (i + 1) * maxHeight = i * maxHeight + maxHeight := by ring
      rcases Nat.le_total maxHeight (height - i * maxHeight) with hd | hd <;>
        rcases Nat.le_total height ((i + 1) * maxHeight) with he | he <;> omega
  · rw [hsplit, List.map_map]
    have := sum_chunk_heights maxHeight height (ceilDiv height maxHeight)
    have hle : height ≤ ceilDiv height maxHeight * maxHeight := le_ceilDiv_mul _ _ hm
    have hmin : min height (ceilDiv height maxHeight * maxHeight) = height := by omega
    calc ((List.range (ceilDiv height maxHeight)).map
            ((fun p : Nat × Nat => p.2) ∘ fun i =>
              (i * maxHeight, min maxHeight (height - i * maxHeight)))).sum
        = (((List.range (ceilDiv height maxHeight)).map
            fun i => min maxHeight (height - i * maxHeight))).sum := by
          congr 1
      _ = height := by rw [this, hmin]
  · intro i hi
    have hlt : i < ceilDiv height maxHeight := by omega
    simp only [hsplit, List.getElem?_map, List.getElem?_range hlt, Option.map_some]
    have h1 : (ceilDiv height maxHeight - 1) * maxHeight < height :=
      ceilDiv_pred_mul_lt _ _ hm (by omega)
    have h2 : (i + 1) * maxHeight ≤ (ceilDiv height maxHeight - 1) * maxHeight :=
      Nat.mul_le_mul_right _ (by omega)
    have hs : (i + 1) * maxHeight = i * maxHeight + maxHeight := by ring
    have : min maxHeight (height - i * maxHeight) = maxHeight := by omega
    simp [this]
  · decide

/-- Closed instance of the Chunker specification at width 100, height
9000, chunk limit 4000. -/
theorem split_image_chunks_spec_witness :
    (splitImageChunks 100 9000 4000).length = ceilDiv 9000 4000 ∧
    (∀ i, i < ceilDiv 9000 4000 →
      (splitImageChunks 100 9000 4000)[i]?
          = some (i * 4000, min 4000 (9000 - i * 4000)) ∧
      i * 4000 + min 4000 (9000 - i * 4000) = min 9000 ((i + 1) * 4000)) ∧
    ((splitImageChunks 100 9000 4000).map Prod.snd).sum = 9000 ∧
    (∀ i, i + 1 < ceilDiv 9000 4000 →
      ((splitImageChunks 100 9000 4000)[i]?.map Prod.snd) = some 4000) ∧
    ((splitImageChunks 100 9000 4000).map Prod.snd) = [4000, 4000, 1000] :=
  split_image_chunks_spec 100 9000 4000 (by decide) (by decide) (by decide)

theorem execReach_inv {V : Type} {tasks : Nat → V} {numTasks limit : Nat}
    (hl : 1 ≤ limit) (hn : 1 ≤ numTasks) :
    ∀ {s : ExecState V} {tr : List Nat}, ExecReach tasks numTasks limit s tr →
      ExecInv tasks numTasks limit s tr := by
  intro s tr h
  induction h with
  | init =>
    have hmin : 1 ≤ min limit numTasks := le_min hl hn
    refine ⟨min_le_right _ _, List.nodup_range _, ?_,
      by simp [initExecState],
      by simp [initExecState], ?_, ?_, List.nodup_nil, ?_⟩
    · intro j hj
      exact List.mem_range.mp hj
    · intro i hi hnotin
      exact absurd (List.mem_range.mpr hi) hnotin
    · intro hemp
      have : min limit numTasks = 0 := by
        simpa [initExecState, List.range_eq_nil] using hemp
      omega
    · intro k
      simp only [initExecState, List.not_mem_nil, false_iff, not_and, not_not]
      intro hk
      exact List.mem_range.mpr hk
  | step hreach hmem ih =>
    obtain ⟨h1, h2, h3, h4, h5, h6, h7, h8, h9⟩ := ih
    rename_i s' tr' j
    have hjlt : j < s'.next := h3 j hmem
    have hjN : j < numTasks := lt_of_lt_of_le hjlt h1
    have hjtr : j ∉ tr' := by
      intro hjin
      exact ((h9 j).mp hjin).2 hmem
    by_cases hnext : s'.next < numTasks
    · refine ⟨?_, ?_, ?_, ?_, ?_, ?_, ?_, ?_, ?_⟩
      · simp [execStep, hnext]; omega
      · simp only [execStep, hnext, if_pos]
        rw [List.nodup_append]
        refine ⟨h2.erase j, List.nodup_singleton _, ?_⟩
        rw [List.disjoint_singleton]
        intro hcon
        exact absurd (h3 _ (List.mem_of_mem_erase hcon)) (by omega)
      · intro k hk
        simp only [execStep, hnext, if_pos, List.mem_append,
          List.mem_singleton] at hk ⊢
        rcases hk with hk | hk
        · exact lt_trans (h3 _ (List.mem_of_mem_erase hk)) (Nat.lt_succ_self _)
        · omega
      · simp only [execStep, hnext, if_pos, List.length_append,
          List.length_singleton, List.length_erase_of_mem hmem]
        omega
      · simp [execStep, h5]
      · intro i hi hnotin
        simp only [execStep, hnext, if_pos, List.mem_append,
          List.mem_singleton, not_or] at hi hnotin
        obtain ⟨hne, hnn⟩ := hnotin
        rw [execStep]
        simp only [List.getElem?_set, h5]
        by_cases hij : j = i
        · subst hij
          simp [hjN]
        · rw [if_neg hij]
          have hilt : i < s'.next := by omega
          refine h6 i hilt ?_
          intro hic
          exact hne ((List.mem_erase_of_ne (Ne.symm hij)).mpr hic)
      · intro hemp
        exfalso
        simp only [execStep, hnext, if_pos] at hemp
        exact List.append_ne_nil_of_right_ne_nil _ (by simp) hemp
      · rw [List.nodup_append]
        exact ⟨h8, List.nodup_singleton _, by
          rw [List.disjoint_singleton]; exact hjtr⟩
      · intro k
        simp only [List.mem_append, List.mem_singleton, execStep, hnext,
          if_pos, List.mem_append, List.mem_singleton, not_or]
        constructor
        · rintro (hk | rfl)
          · obtain ⟨hk1, hk2⟩ := (h9 k).mp hk
            refine ⟨by omega, ?_, by omega⟩
            intro hke
            exact hk2 (List.mem_of_mem_erase hke)
          · refine ⟨by omega, ?_, by omega⟩
            intro hke
            exact absurd rfl ((h2.mem_erase_iff).mp hke).1
        · rintro ⟨hk1, hk2, hk3⟩
          by_cases hkj : k = j
          · right; exact hkj
          · left
            refine (h9 k).mpr ⟨by omega, ?_⟩
            intro hkr
            exact hk2 ((List.mem_erase_of_ne hkj).mpr hkr)
    · refine ⟨?_, ?_, ?_, ?_, ?_, ?_, ?_, ?_, ?_⟩
      · simp only [execStep, if_neg hnext]
        exact h1
      · simp only [execStep, if_neg hnext, List.append_nil]
        exact h2.erase j
      · intro k hk
        simp only [execStep, if_neg hnext, List.append_nil] at hk ⊢
        exact h3 _ (List.mem_of_mem_erase hk)
      · simp only [execStep, if_neg hnext, List.append_nil]
        exact le_trans ((List.erase_sublist _ _).length_le) h4
      · simp [execStep, h5]
      · intro i hi hnotin
        simp only [execStep, if_neg hnext, List.append_nil] at hi hnotin
        rw [execStep]
        simp only [List.getElem?_set, h5]
        by_cases hij : j = i
        · subst hij
          simp [hjN]
        · rw [if_neg hij]
          refine h6 i hi ?_
          intro hic
          exact hnotin ((List.mem_erase_of_ne (Ne.symm hij)).mpr hic)
      · intro hemp
        simp only [execStep, if_neg hnext, List.append_nil] at hemp ⊢
        have hsub : s'.running = [j] := by
          have hj' : ∀ k ∈ s'.running, k = j := by
            intro k hk
            by_contra hne
            have : k ∈ s'.running.erase j := (List.mem_erase_of_ne hne).mpr hk
            simp [hemp] at this
          rcases hr : s'.running with _ | ⟨a, rest⟩
          · exact absurd (hr ▸ hmem) (List.not_mem_nil j)
          · have ha : a = j := hj' a (by simp [hr])
            have hrest : rest = [] := by
              rcases hrest : rest with _ | ⟨b, rest2⟩
              · rfl
              · exfalso
                have hb : b = j := hj' b (by simp [hr, hrest])
                have : ¬ (a, rest).1 ∈ rest := by
                  have := h2
                  rw [hr] at this
                  simpa using (List.nodup_cons.mp this).1
                simp [hrest, ha, hb] at this
            simp [ha, hrest]
        omega
      · rw [List.nodup_append]
        exact ⟨h8, List.nodup_singleton _, by
          rw [List.disjoint_singleton]; exact hjtr⟩
      · intro k
        simp only [List.mem_append, List.mem_singleton, execStep,
          if_neg hnext, List.append_nil]
        constructor
        · rintro (hk | rfl)
          · obtain ⟨hk1, hk2⟩ := (h9 k).mp hk
            refine ⟨hk1, ?_⟩
            intro hke
            exact hk2 (List.mem_of_mem_erase hke)
          · refine ⟨hjlt, ?_⟩
            intro hke
            exact absurd rfl ((h2.mem_erase_iff).mp hke).1
        · rintro ⟨hk1, hk2⟩
          by_cases hkj : k = j
          · right; exact hkj
          · left
            refine (h9 k).mpr ⟨hk1, ?_⟩
            intro hkr
            exact hk2 ((List.mem_erase_of_ne hkj).mpr hkr)

/-- C4: for every family of units that all resolve (unit i resolving
with value tasks i) and every concurrency limit K with 1 <= K <= N, the
executor keeps at most K units in flight in every reachable state, and
every terminal state (no unit left in flight) holds the full result
array of length N whose slot i is unit i's own resolved value,
whatever completion order the schedule took. -/
theorem run_with_concurrency_limit_spec {V : Type} (tasks : Nat → V)
    (numTasks limit : Nat) (hl : 1 ≤ limit) (hln : limit ≤ numTasks) :
    (∀ (s : ExecState V) (tr : List Nat),
      ExecReach tasks numTasks limit s tr → s.running.length ≤ limit) ∧
    (∀ (s : ExecState V) (tr : List Nat),
      ExecReach tasks numTasks limit s tr → s.running = [] →
      s.results.length = numTasks ∧
      s.results = (List.range numTasks).map fun i => some (tasks i)) := by
  have hn : 1 ≤ numTasks := le_trans hl hln
  constructor
  · intro s tr h
    exact (execReach_inv hl hn h).2.2.2.1
  · intro s tr h hemp
    obtain ⟨h1, h2, h3, h4, h5, h6, h7, h8, h9⟩ := execReach_inv hl hn h
    have hnN : s.next = numTasks := h7 hemp
    refine ⟨h5, ?_⟩
    apply List.ext_getElem?
    intro i
    by_cases hi : i < numTasks
    · rw [h6 i (by omega) (by simp [hemp])]
      simp [List.getElem?_map, List.getElem?_range hi]
    · rw [List.getElem?_eq_none (by omega), List.getElem?_eq_none (by simp; omega)]

/-- Closed instance of the executor specification: two units, limit
one, run to completion along the only schedule; the terminal result
array pairs each slot with its own unit's value. -/
theorem run_with_concurrency_limit_spec_witness :
    ∃ (s : ExecState Nat) (tr : List Nat),
      ExecReach (fun i => i) 2 1 s tr ∧ s.running.length ≤ 1 ∧ s.running = [] ∧
      s.results.length = 2 ∧ s.results = (List.range 2).map fun i => some i := by
  have h0 : ExecReach (fun i : Nat => i) 2 1 (initExecState Nat 2 1) [] :=
    ExecReach.init
  have h1 := ExecReach.step (j := 0) h0 (by decide)
  have h2 := ExecReach.step (j := 1) h1 (by decide)
  refine ⟨_, _, h2, ?_, ?_, ?_⟩
  · exact (run_with_concurrency_limit_spec (fun i => i) 2 1 (by decide)
      (by decide)).1 _ _ h2
  · decide
  · exact (run_with_concurrency_limit_spec (fun i => i) 2 1 (by decide)
      (by decide)).2 _ _ h2 (by decide)

/-- C6 counterexample: with two chunks and the program's concurrency
limit 3, the schedule in which chunk 1 settles before chunk 0 is a
reachable execution, and the progress callback then fires with first
arguments 2 then 1 - the settling unit's index plus one - which is not
the monotonically increasing settled-unit count 1 then 2 that the claim
asserts. -/
theorem ocr_progress_counter_counterexample :
    ExecReach (fun i : Nat => i) 2 3
      { next := 2, running := [], results := [some 0, some 1] } [1, 0] ∧
    progressEvents [1, 0] 2 = [(2, 2), (1, 2)] ∧
    progressEvents [1, 0] 2 ≠ (List.range 2).map fun k => (k + 1, 2) := by
  refine ⟨?_, by decide, by decide⟩
  have h0 : ExecReach (fun i : Nat => i) 2 3 (initExecState Nat 2 3) [] :=
    ExecReach.init
  have h1 := ExecReach.step (j := 1) h0 (by decide)
  have h2 := ExecReach.step (j := 0) h1 (by decide)
  exact h2

/-- C6 amended: the progress callback fires exactly once per completed
chunk unit, in completion order, and its arguments are (j + 1,
totalCount) where j is the settling unit's chunk index - not a settled
counter; over a terminal run every unit is reported exactly once (the
completion order is a permutation of the chunk indices). -/
theorem ocr_progress_events_spec {V : Type} (tasks : Nat → V)
    (numTasks limit : Nat) (hl : 1 ≤ limit) (hn : 1 ≤ numTasks) :
    ∀ (s : ExecState V) (tr : List Nat), ExecReach tasks numTasks limit s tr →
      (progressEvents tr numTasks).length = tr.length ∧
      (∀ k (hk : k < tr.length),
        (progressEvents tr numTasks)[k]?
          = some (tr.get ⟨k, hk⟩ + 1, numTasks)) ∧
      (s.running = [] → tr.Perm (List.range numTasks)) := by
  intro s tr h
  refine ⟨by simp [progressEvents], ?_, ?_⟩
  · intro k hk
    simp only [progressEvents, List.getElem?_map]
    rw [List.getElem?_eq_getElem hk]
    simp [List.get_eq_getElem]
  · intro hemp
    obtain ⟨h1, h2, h3, h4, h5, h6, h7, h8, h9⟩ := execReach_inv hl hn h
    have hnN : s.next = numTasks := h7 hemp
    rw [List.perm_ext_iff_of_nodup h8 (List.nodup_range _)]
    intro a
    rw [h9 a, List.mem_range, hnN]
    simp [hemp]

/-- Closed instance of the amended progress property at the completion
order 1-then-0 of a two-chunk run with limit 3. -/
theorem ocr_progress_events_spec_witness :
    (progressEvents [1, 0] 2).length = ([1, 0] : List Nat).length ∧
    (∀ k (hk : k < ([1, 0] : List Nat).length),
      (progressEvents [1, 0] 2)[k]?
        = some (([1, 0] : List Nat).get ⟨k, hk⟩ + 1, 2)) ∧
    (({ next := 2, running := [], results := [some 0, some 1] } :
        ExecState Nat).running = [] → ([1, 0] : List Nat).Perm (List.range 2)) := by
  refine ocr_progress_events_spec (fun i : Nat => i) 2 3 (by decide) (by decide)
    { next := 2, running := [], results := [some 0, some 1] } [1, 0] ?_
  have h0 : ExecReach (fun i : Nat => i) 2 3 (initExecState Nat 2 3) [] :=
    ExecReach.init
  exact ExecReach.step (j := 0) (ExecReach.step (j := 1) h0 (by decide)) (by decide)

theorem isRetryable_iff (m : String) :
    isRetryable m = true ↔
      (containsSubstr "429" m = true ∨ containsSubstr "503" m = true ∨
       containsSubstr "UNAVAILABLE" m = true ∨
       containsSubstr "overloaded" m = true) := by
  simp only [isRetryable, Bool.or_eq_true]
  tauto

theorem withRetryGo_ok {V : Type} {attempts : Nat → Except JsValue V}
    {maxRetries i fuel : Nat} {v : V} (h : attempts i = Except.ok v)
    (hf : 1 ≤ fuel) : withRetryGo attempts maxRetries i fuel = Except.ok v := by
  obtain ⟨f, rfl⟩ : ∃ f, fuel = f + 1 := ⟨fuel - 1, by omega⟩
  simp [withRetryGo, h]

theorem withRetryGo_stop {V : Type} {attempts : Nat → Except JsValue V}
    {maxRetries i fuel : Nat} {raw : JsValue}
    (h : attempts i = Except.error raw)
    (hc : isRetryable (toError raw).message = false ∨ i = maxRetries - 1)
    (hf : 1 ≤ fuel) :
    withRetryGo attempts maxRetries i fuel = Except.error (toError raw) := by
  obtain ⟨f, rfl⟩ : ∃ f, fuel = f + 1 := ⟨fuel - 1, by omega⟩
  simp [withRetryGo, h, hc]

theorem withRetryGo_skip {V : Type} {attempts : Nat → Except JsValue V}
    {maxRetries : Nat} (n : Nat) :
    ∀ i, (∀ k, i ≤ k → k < i + n → ∃ raw, attempts k = Except.error raw ∧
        isRetryable (toError raw).message = true) →
      i + n ≤ maxRetries - 1 →
      withRetryGo attempts maxRetries i (maxRetries - i)
        = withRetryGo attempts maxRetries (i + n) (maxRetries - (i + n)) := by
  induction n with
  | zero => intro i _ _; rfl
  | succ m ih =>
    intro i hfail hle
    obtain ⟨raw, hraw, hret⟩ := hfail i (le_refl i) (by omega)
    have hne : ¬ (isRetryable (toError raw).message = false
        ∨ i = maxRetries - 1) := by
      rintro (hc | hc)
      · rw [hret] at hc; simp at hc
      · omega
    obtain ⟨f, hf⟩ : ∃ f, maxRetries - i = f + 1 := ⟨maxRetries - i - 1, by omega⟩
    have hstep : withRetryGo attempts maxRetries i (maxRetries - i)
        = withRetryGo attempts maxRetries (i + 1) f := by
      rw [hf]
      simp [withRetryGo, hraw, hne]
    have hfe : f = maxRetries - (i + 1) := by omega
    rw [hstep, hfe]
    have harg : i + (m + 1) = (i + 1) + m := by omega
    rw [harg]
    exact ih (i + 1)
      (fun k hk1 hk2 => hfail k (by omega) (by omega)) (by omega)

/-- C5: an error is retried iff its message carries one of the signals
429, 503, UNAVAILABLE (service unavailable) or overloaded; a call
whose first maxRetries - 1 invocations fail retryably and whose last
invocation succeeds returns the success value; a call whose attempt i
fails with a non-retryable error (after retryable failures only)
propagates that error without further attempts; and a call all of
whose maxRetries invocations fail retryably propagates the last
error. -/
theorem with_retry_spec {V : Type} (maxRetries : Nat) (hm : 1 ≤ maxRetries) :
    (∀ (attempts : Nat → Except JsValue V) (v0 : JsValue) (w : V),
      2 ≤ maxRetries → attempts 0 = Except.error v0 →
      (∀ k, 1 ≤ k → attempts k = Except.ok w) →
      (withRetry attempts maxRetries = Except.ok w ↔
        (containsSubstr "429" (toError v0).message = true ∨
         containsSubstr "503" (toError v0).message = true ∨
         containsSubstr "UNAVAILABLE" (toError v0).message = true ∨
         containsSubstr "overloaded" (toError v0).message = true))) ∧
    (∀ (attempts : Nat → Except JsValue V) (errs : Nat → JsValue) (w : V),
      (∀ k, k < maxRetries - 1 → attempts k = Except.error (errs k) ∧
        isRetryable (toError (errs k)).message = true) →
      attempts (maxRetries - 1) = Except.ok w →
      withRetry attempts maxRetries = Except.ok w) ∧
    (∀ (attempts : Nat → Except JsValue V) (errs : Nat → JsValue) (i : Nat),
      i < maxRetries →
      (∀ k, k < i → attempts k = Except.error (errs k) ∧
        isRetryable (toError (errs k)).message = true) →
      attempts i = Except.error (errs i) →
      isRetryable (toError (errs i)).message = false →
      withRetry attempts maxRetries = Except.error (toError (errs i))) ∧
    (∀ (attempts : Nat → Except JsValue V) (errs : Nat → JsValue),
      (∀ k, k < maxRetries → attempts k = Except.error (errs k) ∧
        isRetryable (toError (errs k)).message = true) →
      withRetry attempts maxRetries
        = Except.error (toError (errs (maxRetries - 1)))) := by
  refine ⟨?_, ?_, ?_, ?_⟩
  · intro attempts v0 w h2 h0 hrest
    rw [← isRetryable_iff]
    constructor
    · intro hok
      by_contra hno
      have hfalse : isRetryable (toError v0).message = false := by
        cases h : isRetryable (toError v0).message
        · rfl
        · exact absurd h hno
      have hstop := @withRetryGo_stop V attempts maxRetries 0 maxRetries v0
        h0 (Or.inl hfalse) (by omega)
      have hgoal : withRetry attempts maxRetries
          = withRetryGo attempts maxRetries 0 maxRetries := rfl
      rw [hgoal, hstop] at hok
      exact Except.noConfusion hok
    · intro hsig
      have hskip := @withRetryGo_skip V attempts maxRetries 1 0
        (by
          intro k hk1 hk2
          have hk0 : k = 0 := by omega
          subst hk0
          exact ⟨v0, h0, hsig⟩)
        (by omega)
      have h1 : maxRetries - 0 = maxRetries := by omega
      rw [h1] at hskip
      show withRetryGo attempts maxRetries 0 maxRetries = Except.ok w
      rw [hskip]
      exact withRetryGo_ok (hrest 1 (by omega)) (by omega)
  · intro attempts errs w hfail hok
    have hskip := @withRetryGo_skip V attempts maxRetries (maxRetries - 1) 0
      (by
        intro k hk1 hk2
        obtain ⟨ha, hr⟩ := hfail k (by omega)
        exact ⟨errs k, ha, hr⟩)
      (by omega)
    have h1 : maxRetries - 0 = maxRetries := by omega
    have h2 : 0 + (maxRetries - 1) = maxRetries - 1 := by omega
    rw [h1, h2] at hskip
    show withRetryGo attempts maxRetries 0 maxRetries = Except.ok w
    rw [hskip]
    exact withRetryGo_ok hok (by omega)
  · intro attempts errs i hi hfail herr hret
    have hskip := @withRetryGo_skip V attempts maxRetries i 0
      (by
        intro k hk1 hk2
        obtain ⟨ha, hr⟩ := hfail k (by omega)
        exact ⟨errs k, ha, hr⟩)
      (by omega)
    have h1 : maxRetries - 0 = maxRetries := by omega
    have h2 : 0 + i = i := by omega
    rw [h1, h2] at hskip
    show withRetryGo attempts maxRetries 0 maxRetries
        = Except.error (toError (errs i))
    rw [hskip]
    exact withRetryGo_stop herr (Or.inl hret) (by omega)
  · intro attempts errs hfail
    have hskip := @withRetryGo_skip V attempts maxRetries (maxRetries - 1) 0
      (by
        intro k hk1 hk2
        obtain ⟨ha, hr⟩ := hfail k (by omega)
        exact ⟨errs k, ha, hr⟩)
      (by omega)
    have h1 : maxRetries - 0 = maxRetries := by omega
    have h2 : 0 + (maxRetries - 1) = maxRetries - 1 := by omega
    rw [h1, h2] at hskip
    show withRetryGo attempts maxRetries 0 maxRetries
        = Except.error (toError (errs (maxRetries - 1)))
    rw [hskip]
    exact withRetryGo_stop (hfail (maxRetries - 1) (by omega)).1
      (Or.inr rfl) (by omega)

/-- Closed instances of the retry specification at maxRetries 3: two
retryable 503 failures then success yield the success value; an
immediate non-retryable failure propagates as-is; three retryable
failures propagate the last error. -/
theorem with_retry_spec_witness :
    withRetry (V := Nat)
      (fun k => if k < 2 then Except.error (JsValue.errorObj "503 unavailable")
        else Except.ok 7) 3 = Except.ok 7 ∧
    withRetry (V := Nat) (fun _ => Except.error (JsValue.errorObj "boom")) 3
      = Except.error { message := "boom" } ∧
    withRetry (V := Nat)
      (fun k => Except.error (JsValue.errorObj (toString k ++ " got 429"))) 3
      = Except.error { message := "2 got 429" } := by
  refine ⟨?_, ?_, ?_⟩
  · refine (with_retry_spec (V := Nat) 3 (by decide)).2.1 _
      (fun _ => JsValue.errorObj "503 unavailable") 7 ?_ rfl
    intro k hk
    have : k = 0 ∨ k = 1 := by omega
    rcases this with rfl | rfl
    · exact ⟨rfl, by decide⟩
    · exact ⟨rfl, by decide⟩
  · refine (with_retry_spec (V := Nat) 3 (by decide)).2.2.1 _
      (fun _ => JsValue.errorObj "boom") 0 (by omega) ?_ rfl (by decide)
    intro k hk
    omega
  · refine (with_retry_spec (V := Nat) 3 (by decide)).2.2.2 _
      (fun k => JsValue.errorObj (toString k ++ " got 429")) ?_
    intro k hk
    have : k = 0 ∨ k = 1 ∨ k = 2 := by omega
    rcases this with rfl | rfl | rfl
    · exact ⟨rfl, by decide⟩
    · exact ⟨rfl, by decide⟩
    · exact ⟨rfl, by decide⟩

/-- C10: whatever values the wrapped function throws, including
non-Error values, the object the retry helper propagates is always an
Error instance (a JsError): it is the wrap of some thrown value, a
non-Error value being wrapped as new Error(String(value)); and the
retryability decision is likewise taken on the wrapped message, so a
thrown non-Error string carrying a transient signal is retried. -/
theorem with_retry_wraps_thrown_values {V : Type} :
    (∀ s, toError (JsValue.nonError s) = { message := s }) ∧
    (∀ (attempts : Nat → Except JsValue V) (maxRetries : Nat)
        (E : JsError), 1 ≤ maxRetries →
      withRetry attempts maxRetries = Except.error E →
      ∃ i raw, i < maxRetries ∧ attempts i = Except.error raw ∧
        E = toError raw) ∧
    (∀ (attempts : Nat → Except JsValue V) (s : String) (w : V),
      attempts 0 = Except.error (JsValue.nonError s) →
      isRetryable s = true → attempts 1 = Except.ok w →
      withRetry attempts 2 = Except.ok w) := by
  refine ⟨fun s => rfl, ?_, ?_⟩
  · intro attempts maxRetries E hm
    have main : ∀ fuel i, i + fuel = maxRetries → i < maxRetries →
        withRetryGo attempts maxRetries i fuel = Except.error E →
        ∃ j raw, j < maxRetries ∧ attempts j = Except.error raw ∧
          E = toError raw := by
      intro fuel
      induction fuel with
      | zero =>
        intro i hif hlt h
        omega
      | succ f ih =>
        intro i hif hlt h
        rw [withRetryGo] at h
        cases ha : attempts i with
        | ok v => rw [ha] at h; exact Except.noConfusion h
        | error raw =>
          rw [ha] at h
          simp only at h
          by_cases hc : isRetryable (toError raw).message = false
              ∨ i = maxRetries - 1
          · rw [if_pos hc] at h
            injection h with h'
            exact ⟨i, raw, by omega, ha, h'.symm⟩
          · rw [if_neg hc] at h
            have hne : i ≠ maxRetries - 1 := by tauto
            exact ih (i + 1) (by omega) (by omega) h
    exact fun h => main maxRetries 0 (by omega) (by omega) h
  · intro attempts s w h0 hr h1
    rw [withRetry]
    have hne : ¬ (isRetryable (toError (JsValue.nonError s)).message = false
        ∨ 0 = 2 - 1) := by
      rintro (hc | hc)
      · have : toError (JsValue.nonError s) = { message := s } := rfl
        rw [this] at hc
        rw [hr] at hc
        simp at hc
      · omega
    show withRetryGo attempts 2 0 2 = Except.ok w
    rw [withRetryGo]
    rw [h0]
    simp only [if_neg hne]
    exact withRetryGo_ok h1 (by omega)

/-- Closed instance of the wrapping property: a thrown non-Error
string propagates as an Error carrying that string as message, and a
thrown non-Error string bearing a 503 signal is retried. -/
theorem with_retry_wraps_thrown_values_witness :
    toError (JsValue.nonError "oops") = { message := "oops" } ∧
    (∃ i raw, i < 1 ∧
      (fun _ : Nat => (Except.error (JsValue.nonError "oops") : Except JsValue Nat)) i
        = Except.error raw ∧
      ({ message := "oops" } : JsError) = toError raw) ∧
    withRetry (V := Nat)
      (fun k => if k = 0 then Except.error (JsValue.nonError "http 503")
        else Except.ok 9) 2 = Except.ok 9 := by
  refine ⟨(with_retry_wraps_thrown_values (V := Nat)).1 "oops", ?_, ?_⟩
  · refine (with_retry_wraps_thrown_values (V := Nat)).2.1
      (fun _ => Except.error (JsValue.nonError "oops")) 1
      { message := "oops" } (by omega) ?_
    rfl
  · exact (with_retry_wraps_thrown_values (V := Nat)).2.2 _ "http 503" 9 rfl
      (by decide) rfl

theorem map_filter_no_text_eq_replicate (ts : List String)
    (h : ∀ t ∈ ts, matchesNoTextPattern t = true) :
    ts.map filterNoText = List.replicate ts.length "" := by
  induction ts with
  | nil => rfl
  | cons t rest ih =>
    have ht : filterNoText t = "" := by
      simp [filterNoText, h t (by simp)]
    simp only [List.map_cons, List.length_cons, List.replicate_succ, ht]
    rw [ih fun u hu => h u (by simp [hu])]

theorem combineTexts_replicate_data (n : Nat) :
    (combineTexts (List.replicate n "")).data
      = List.replicate (2 * (n - 1)) '\n' := by
  induction n with
  | zero => rfl
  | succ m ih =>
    cases m with
    | zero => rfl
    | succ k =>
      have hrep : List.replicate (k + 2) ("" : String)
          = "" :: List.replicate (k + 1) "" := rfl
      have hne : List.replicate (k + 1) ("" : String)
          = "" :: List.replicate k "" := rfl
      rw [hrep]
      have hstep : combineTexts (("" : String) :: List.replicate (k + 1) "")
          = "" ++ "\n\n" ++ combineTexts (List.replicate (k + 1) "") := by
        rw [hne]
        rfl
      rw [hstep, String.data_append, String.data_append, ih]
      have h2 : 2 * (k + 2 - 1) = 2 * (k + 1 - 1) + 2 := by omega
      rw [h2]
      have h3 : ∀ j : Nat, List.replicate (j + 2) '\n'
          = '\n' :: '\n' :: List.replicate j '\n' := fun j => rfl
      rw [h3]
      rfl

/-- C7 counterexample: with two chunks both matching the no-text
boilerplate, each chunk is normalized to the empty string, but the
joined text is the two-newline separator string, not the empty string
the claim asserts. -/
theorem no_text_join_counterexample :
    matchesNoTextPattern "この画像にはテキストが含まれていません" = true ∧
    combineTexts
      (["この画像にはテキストが含まれていません",
        "この画像にはテキストが含まれていません"].map filterNoText) = "\n\n" ∧
    ("\n\n" : String) ≠ "" := by
  refine ⟨by decide, by decide, by decide⟩

/-- C7 amended: every chunk text matching a no-text pattern is
normalized to the empty string; when every chunk matches, the joined
text consists solely of the blank-line separators - 2 * (n - 1)
newline characters for n chunks, hence free of the boilerplate phrases
- and it is the empty string exactly when there is at most one
chunk. -/
theorem no_text_all_chunks_spec (ts : List String)
    (h : ∀ t ∈ ts, matchesNoTextPattern t = true) :
    (∀ t, matchesNoTextPattern t = true → filterNoText t = "") ∧
    ts.map filterNoText = List.replicate ts.length "" ∧
    (combineTexts (ts.map filterNoText)).data
      = List.replicate (2 * (ts.length - 1)) '\n' ∧
    (ts.length ≤ 1 → combineTexts (ts.map filterNoText) = "") := by
  have hmap := map_filter_no_text_eq_replicate ts h
  refine ⟨?_, hmap, ?_, ?_⟩
  · intro t ht
    simp [filterNoText, ht]
  · rw [hmap, combineTexts_replicate_data]
  · intro hlen
    rw [hmap]
    match ts, hlen with
    | [], _ => rfl
    | [t], _ => rfl

/-- Closed instance of the amended no-text property at two chunks both
answering なし. -/
theorem no_text_all_chunks_spec_witness :
    (∀ t, matchesNoTextPattern t = true → filterNoText t = "") ∧
    (["なし", "なし"].map filterNoText) = List.replicate 2 "" ∧
    (combineTexts (["なし", "なし"].map filterNoText)).data
      = List.replicate (2 * (2 - 1)) '\n' ∧
    (2 ≤ 1 → combineTexts (["なし", "なし"].map filterNoText) = "") := by
  have h := no_text_all_chunks_spec ["なし", "なし"] (by decide)
  simpa using h

/-- C8 counterexample: the rule cleanup of the raw text 休舌 newline
60kg fixes the misread but leaves the newline, because the
number-fragment join only fires on a newline between the value and
the unit; the result differs from the claimed 体重60kg. -/
theorem pre_clean_scenario_counterexample :
    preCleanOcr "休舌\n60kg" = "体重\n60kg" ∧
    ("体重\n60kg" : String) ≠ "体重60kg" := by
  exact ⟨by decide, by decide⟩

/-- C8 amended: the rule cleanup maps 休舌 newline 60kg to 体重
newline 60kg (misread fixed, newline kept since value and unit already
share a line), and maps 休舌60 newline kg - where the newline does
separate value and unit - to 体重60kg. -/
theorem pre_clean_scenario_amended :
    preCleanOcr "休舌\n60kg" = "体重\n60kg" ∧
    preCleanOcr "休舌60\nkg" = "体重60kg" := by
  exact ⟨by decide, by decide⟩

/-- C9: when the model-based reflow backend call ultimately fails, the
cleanup stage does not propagate the error: it returns the
rule-cleaned text unchanged, so a cleanup-stage failure is never fatal
to the OCR call. -/
theorem post_process_failure_spec (attempts : Nat → Except JsValue String)
    (rawText : String) (E : JsError)
    (h : withRetry attempts 3 = Except.error E) :
    postProcessOcr attempts rawText = rawText := by
  simp [postProcessOcr, h]

/-- Closed instance of the reflow-failure recovery: a backend that
always fails non-retryably leaves the rule-cleaned text unchanged. -/
theorem post_process_failure_spec_witness :
    postProcessOcr (fun _ => Except.error (JsValue.errorObj "backend down"))
      "体重60kg" = "体重60kg" :=
  post_process_failure_spec _ "体重60kg" { message := "backend down" } rfl

end SiteTranscription
